import Mathlib

/-!
# themealdb-explorer: the in-memory cache and the request handlers of `backend/server.js`

A shallow embedding of `src/backend/server.js`.

* The module-level object `cache` becomes an explicit `Store` that every function takes and
  returns.  A `Store` lists the own properties of `cache` in the order `Object.keys` reports
  them.  The property names the handlers build (`"all"`, `"random"`, `"categories"`,
  `"search_…"`, `"category_…"`) are never canonical array indices and never `"__proto__"`, so
  that order is insertion order and every assignment `cache[key] = …` creates or updates an own
  property.
* `Date.now()` becomes an explicit integer argument (milliseconds).
* `axios.get` becomes a field of `Upstream`: a call either rejects or resolves with a payload.
-/

namespace MealCache

/-! ## JavaScript values -/

/-- JSON-shaped JavaScript values, with `undefined` for missing members. -/
inductive JsVal where
  | undefined
  | null
  | bool (b : Bool)
  | num (n : Int)
  | str (s : String)
  | arr (items : List JsVal)
  | obj (fields : List (String × JsVal))

/-- JavaScript truthiness (`ToBoolean`): `undefined`, `null`, `false`, `0` and `""` are falsy,
every array and every object is truthy. -/
def JsVal.truthy : JsVal → Bool
  | .undefined => false
  | .null => false
  | .bool b => b
  | .num n => decide (n ≠ 0)
  | .str s => decide (s ≠ "")
  | .arr _ => true
  | .obj _ => true

/-- What a JavaScript evaluation can throw or reject with. -/
inductive JsError where
  | typeError
  | requestFailed

/-! ## The cache (server.js lines 15-39) -/

/-- The object stored under a key: `{ data, time }`. -/
structure Entry where
  data : JsVal
  time : Int

/-- The own properties of `cache`, in `Object.keys` order. -/
abbrev Store := List (String × Entry)

/-- `const CACHE_EXPIRY = 5 * 60 * 1000`. -/
def CACHE_EXPIRY : Int := 5 * 60 * 1000

/-- `const MAX_CACHE_SIZE = 50`. -/
def MAX_CACHE_SIZE : Nat := 50

/-- `Object.keys(cache)`. -/
def Store.keys (cache : Store) : List String := cache.map Prod.fst

/-- `cache[key]`: the entry stored under `key`, `none` for `undefined`. -/
def Store.get? : Store → String → Option Entry
  | [], _ => none
  | (k, e) :: rest, key => if k = key then some e else Store.get? rest key

/-- `delete cache[key]`. -/
def Store.delete (cache : Store) (key : String) : Store :=
  cache.filter (fun p => decide (p.1 ≠ key))

/-- `cache[key] = entry`: an existing property keeps its place, a new one goes last. -/
def Store.assign : Store → String → Entry → Store
  | [], key, entry => [(key, entry)]
  | (k, e) :: rest, key, entry =>
    if k = key then (k, entry) :: rest else (k, e) :: Store.assign rest key entry

/-- The reducer `(a, b) => cache[a].time < cache[b].time ? a : b`.  The keys `a` and `b` come from
`Object.keys(cache)`, so each is carried together with the entry `cache[·]` it names. -/
def older (a b : String × Entry) : String × Entry :=
  if a.2.time < b.2.time then a else b

/-- `Object.keys(cache).reduce((a, b) => cache[a].time < cache[b].time ? a : b)`: a left fold
seeded with the first key; `none` when there is no key (`reduce` of an empty array without an
initial value throws a `TypeError`). -/
def oldestKey : Store → Option (String × Entry)
  | [] => none
  | a :: rest => some (rest.foldl older a)

/-- The body of `setCache` with the capacity as a parameter; `now` is the reading of `Date.now()`.
An exception leaves the store as it was. -/
def setCacheCap (maxSize : Nat) (cache : Store) (key : String) (data : JsVal) (now : Int) :
    Except JsError Store :=
  if maxSize ≤ (Store.keys cache).length then
    match oldestKey cache with
    | none => .error .typeError
    | some victim => .ok (Store.assign (Store.delete cache victim.1) key ⟨data, now⟩)
  else
    .ok (Store.assign cache key ⟨data, now⟩)

/-- `function setCache(key, data)` with `MAX_CACHE_SIZE = 50`. -/
def setCache (cache : Store) (key : String) (data : JsVal) (now : Int) : Except JsError Store :=
  setCacheCap MAX_CACHE_SIZE cache key data now

/-- `function getCache(key)`: the returned value together with the store after the call (the
function assigns nothing and deletes nothing); `now` is the reading of `Date.now()`. -/
def getCache (cache : Store) (key : String) (now : Int) : JsVal × Store :=
  match Store.get? cache key with
  | some e => if now - e.time < CACHE_EXPIRY then (e.data, cache) else (.null, cache)
  | none => (.null, cache)

/-! ## Sequences of cache calls -/

/-- One call on the cache, with the reading of `Date.now()` it sees. -/
inductive CacheOp where
  | set (key : String) (data : JsVal) (now : Int)
  | get (key : String) (now : Int)

/-- The store after one call; a `setCache` that throws leaves the store untouched. -/
def CacheOp.step (cache : Store) : CacheOp → Store
  | .set key data now =>
    match setCache cache key data now with
    | .ok cache' => cache'
    | .error _ => cache
  | .get key now => (getCache cache key now).2

/-- The store after a sequence of calls, starting from `const cache = {}`. -/
def runOps (ops : List CacheOp) : Store :=
  ops.foldl CacheOp.step []

/-- A write `setCache(key, data)` together with the reading of `Date.now()` it sees. -/
structure Write where
  key : String
  data : JsVal
  now : Int

/-- The entry `{ data, time }` a write stores. -/
def Write.entry (w : Write) : String × Entry := (w.key, ⟨w.data, w.now⟩)

/-- Consecutive `setCache` calls under capacity `maxSize`. -/
def setCacheSeq (maxSize : Nat) : Store → List Write → Except JsError Store
  | cache, [] => .ok cache
  | cache, w :: rest =>
    match setCacheCap maxSize cache w.key w.data w.now with
    | .error e => .error e
    | .ok cache' => setCacheSeq maxSize cache' rest

/-! ## The upstream service (the `axios.get` calls) -/

/-- The payload `response.data` of `search.php`, `filter.php` and `lookup.php`: a JSON object
whose member `meals` is an array, or is `null` or missing (`none`). -/
structure MealsPayload where
  meals : Option (List JsVal)

/-- The payload `response.data` of `categories.php`: a JSON object; `categories` is the value of
its member of that name, `undefined` when it has none. -/
structure CategoriesPayload where
  categories : JsVal

/-- What `await axios.get(url)` gives for each URL the handlers build: `.error` when the promise
rejects, `.ok` with `response.data` when it resolves.  `lookup` is indexed by the value of
`meal.idMeal` that is interpolated into the URL. -/
structure Upstream where
  searchLetter : Char → Except JsError MealsPayload
  searchName : String → Except JsError MealsPayload
  random : Except JsError JsVal
  categories : Except JsError CategoriesPayload
  filter : String → Except JsError MealsPayload
  lookup : JsVal → Except JsError MealsPayload

/-- An upstream request issued by a handler. -/
inductive UpstreamCall where
  | searchLetter (letter : Char)
  | searchName (name : String)
  | random
  | categories
  | filter (category : String)
  | lookup (id : JsVal)

/-- Whether the promise of an upstream request rejects. -/
def Upstream.fails (up : Upstream) : UpstreamCall → Bool
  | .searchLetter letter => match up.searchLetter letter with | .error _ => true | .ok _ => false
  | .searchName name => match up.searchName name with | .error _ => true | .ok _ => false
  | .random => match up.random with | .error _ => true | .ok _ => false
  | .categories => match up.categories with | .error _ => true | .ok _ => false
  | .filter category => match up.filter category with | .error _ => true | .ok _ => false
  | .lookup id => match up.lookup id with | .error _ => true | .ok _ => false

/-! ## The request handlers (server.js lines 47-158) -/

/-- The logical requests, one per route; `search` carries `req.query.name || ""`,
`listByCategory` carries `req.params.name`. -/
inductive Operation where
  | listAll
  | search (name : String)
  | random
  | listCategories
  | listByCategory (categoryName : String)

/-- The `cacheKey` each handler computes. -/
def cacheKey : Operation → String
  | .listAll => "all"
  | .search name => "search_" ++ name
  | .random => "random"
  | .listCategories => "categories"
  | .listByCategory categoryName => "category_" ++ categoryName

/-- What a handler does: the response (`res.status(..).json(..)`, status 200 by default), the
store afterwards and the upstream requests it issued, in order. -/
structure Outcome where
  status : Nat
  body : JsVal
  cache : Store
  calls : List UpstreamCall

/-- The body `{ error: msg }` of a failure response. -/
def errorBody (msg : String) : JsVal := .obj [("error", .str msg)]

/-- The letters `String.fromCharCode(i)` for `i = 97, …, 122`. -/
def letters : List Char := (List.range' 97 26).map Char.ofNat

/-- The loop of `/api/all` over the remaining letters, from the current `allMeals`: the result
(`.error` when an `await` throws) and the requests issued. -/
def fetchLetters (up : Upstream) : List Char → List JsVal →
    Except JsError (List JsVal) × List UpstreamCall
  | [], allMeals => (.ok allMeals, [])
  | letter :: rest, allMeals =>
    match up.searchLetter letter with
    | .error e => (.error e, [.searchLetter letter])
    | .ok data =>
      let allMeals' :=
        match data.meals with
        | some meals => allMeals ++ meals
        | none => allMeals
      let r := fetchLetters up rest allMeals'
      (r.1, .searchLetter letter :: r.2)

/-- `app.get("/api/all")`; `tRead` and `tWrite` are the readings of `Date.now()` in `getCache`
and in `setCache`. -/
def getAll (up : Upstream) (cache : Store) (tRead tWrite : Int) : Outcome :=
  let key := cacheKey .listAll
  let cached := getCache cache key tRead
  if cached.1.truthy then ⟨200, .obj [("meals", cached.1)], cached.2, []⟩
  else
    let r := fetchLetters up letters []
    match r.1 with
    | .error _ => ⟨500, errorBody "Failed to fetch meals", cached.2, r.2⟩
    | .ok allMeals =>
      let top50 := allMeals.take 50
      match setCache cached.2 key (.arr top50) tWrite with
      | .error _ => ⟨500, errorBody "Failed to fetch meals", cached.2, r.2⟩
      | .ok cache' => ⟨200, .obj [("meals", .arr top50)], cache', r.2⟩

/-- `app.get("/api/search")`; `name` is `req.query.name || ""`. -/
def getSearch (up : Upstream) (cache : Store) (name : String) (tRead tWrite : Int) : Outcome :=
  let key := cacheKey (.search name)
  let cached := getCache cache key tRead
  if cached.1.truthy then ⟨200, .obj [("meals", cached.1)], cached.2, []⟩
  else
    match up.searchName name with
    | .error _ => ⟨500, errorBody "Failed to search meals", cached.2, [.searchName name]⟩
    | .ok data =>
      let meals :=
        match data.meals with
        | some ms => ms.take 50
        | none => []
      match setCache cached.2 key (.arr meals) tWrite with
      | .error _ => ⟨500, errorBody "Failed to search meals", cached.2, [.searchName name]⟩
      | .ok cache' => ⟨200, .obj [("meals", .arr meals)], cache', [.searchName name]⟩

/-- `app.get("/api/random")`. -/
def getRandom (up : Upstream) (cache : Store) (tRead tWrite : Int) : Outcome :=
  let key := cacheKey .random
  let cached := getCache cache key tRead
  if cached.1.truthy then ⟨200, cached.1, cached.2, []⟩
  else
    match up.random with
    | .error _ => ⟨500, errorBody "Failed to fetch random meal", cached.2, [.random]⟩
    | .ok data =>
      match setCache cached.2 key data tWrite with
      | .error _ => ⟨500, errorBody "Failed to fetch random meal", cached.2, [.random]⟩
      | .ok cache' => ⟨200, data, cache', [.random]⟩

/-- `app.get("/api/categories")`. -/
def getCategories (up : Upstream) (cache : Store) (tRead tWrite : Int) : Outcome :=
  let key := cacheKey .listCategories
  let cached := getCache cache key tRead
  if cached.1.truthy then ⟨200, .obj [("categories", cached.1)], cached.2, []⟩
  else
    match up.categories with
    | .error _ => ⟨500, errorBody "Failed to fetch categories", cached.2, [.categories]⟩
    | .ok data =>
      let categories := data.categories
      match setCache cached.2 key categories tWrite with
      | .error _ => ⟨500, errorBody "Failed to fetch categories", cached.2, [.categories]⟩
      | .ok cache' => ⟨200, .obj [("categories", categories)], cache', [.categories]⟩

/-- The member access `meal.idMeal`: a `TypeError` on `undefined` and `null`, the member's value
on an object, `undefined` where there is no such member. -/
def idMeal : JsVal → Except JsError JsVal
  | .undefined => .error .typeError
  | .null => .error .typeError
  | .obj fields =>
    match fields.find? (fun f => decide (f.1 = "idMeal")) with
    | some f => .ok f.2
    | none => .ok .undefined
  | _ => .ok .undefined

/-- The async callback of `mealsBasic.map`: the request for one stub and `detailRes.data.meals[0]`
(a `TypeError` when `meals` is `null`, `undefined` when it is an empty array), with the requests
issued. -/
def fetchDetail (up : Upstream) (meal : JsVal) : Except JsError JsVal × List UpstreamCall :=
  match idMeal meal with
  | .error e => (.error e, [])
  | .ok id =>
    match up.lookup id with
    | .error e => (.error e, [.lookup id])
    | .ok data =>
      match data.meals with
      | none => (.error .typeError, [.lookup id])
      | some [] => (.ok .undefined, [.lookup id])
      | some (first :: _) => (.ok first, [.lookup id])

/-- `await Promise.all(promises)`: the results in order when every promise resolves, a rejection
as soon as one rejects. -/
def promiseAll : List (Except JsError JsVal) → Except JsError (List JsVal)
  | [] => .ok []
  | .error e :: _ => .error e
  | .ok v :: rest =>
    match promiseAll rest with
    | .error e => .error e
    | .ok vs => .ok (v :: vs)

/-- `app.get("/api/category/:name")`; `categoryName` is `req.params.name`. -/
def getCategory (up : Upstream) (cache : Store) (categoryName : String) (tRead tWrite : Int) :
    Outcome :=
  let key := cacheKey (.listByCategory categoryName)
  let cached := getCache cache key tRead
  if cached.1.truthy then ⟨200, .obj [("meals", cached.1)], cached.2, []⟩
  else
    match up.filter categoryName with
    | .error _ =>
      ⟨500, errorBody "Failed to fetch meals by category", cached.2, [.filter categoryName]⟩
    | .ok data =>
      let mealsBasic :=
        match data.meals with
        | some ms => ms.take 50
        | none => []
      let fullMealsPromises := mealsBasic.map (fetchDetail up)
      let calls := .filter categoryName :: (fullMealsPromises.map Prod.snd).flatten
      match promiseAll (fullMealsPromises.map Prod.fst) with
      | .error _ => ⟨500, errorBody "Failed to fetch meals by category", cached.2, calls⟩
      | .ok fullMeals =>
        match setCache cached.2 key (.arr fullMeals) tWrite with
        | .error _ => ⟨500, errorBody "Failed to fetch meals by category", cached.2, calls⟩
        | .ok cache' => ⟨200, .obj [("meals", .arr fullMeals)], cache', calls⟩

/-- The handler that serves each logical request. -/
def handle (up : Upstream) (cache : Store) (tRead tWrite : Int) : Operation → Outcome
  | .listAll => getAll up cache tRead tWrite
  | .search name => getSearch up cache name tRead tWrite
  | .random => getRandom up cache tRead tWrite
  | .listCategories => getCategories up cache tRead tWrite
  | .listByCategory categoryName => getCategory up cache categoryName tRead tWrite

/-- How a handler wraps a cached value in its response: `res.json(cached)` for `/api/random`,
`res.json({ categories: cached })` for `/api/categories`, `res.json({ meals: cached })` for the
other three. -/
def hitBody (v : JsVal) : Operation → JsVal
  | .random => v
  | .listCategories => .obj [("categories", v)]
  | _ => .obj [("meals", v)]

/-- The meals one letter contributes to `allMeals`: those of its payload, none when the payload
has no `meals` list. -/
def letterMeals (up : Upstream) (letter : Char) : List JsVal :=
  match up.searchLetter letter with
  | .ok data =>
    match data.meals with
    | some meals => meals
    | none => []
  | .error _ => []

/-! ## Sample stores -/

/-- A store at capacity: the fifty keys `"search_0"`, …, `"search_49"`, the `i`-th written at
time `i` with data `i`. -/
def sampleFull : Store :=
  (List.range 50).map (fun i => ("search_" ++ toString i, ⟨.num i, i⟩))

/-- A store with two entries, written at times `0` and `1`. -/
def sampleTwo : Store :=
  [("all", ⟨.arr [], 0⟩), ("random", ⟨.obj [("meals", .arr [])], 1⟩)]

/-! ## Sample upstreams -/

/-- A stub of the upstream for Scenario E: `filter.php` yields the stubs with ids `"1"` and
`"2"`, the lookup of id `"1"` rejects, every other lookup resolves with one record; the letter
searches resolve for `'a'` and `'b'` and reject from `'c'` on; the other requests reject. -/
def upstreamScenarioE : Upstream where
  searchLetter := fun letter =>
    if letter = 'a' ∨ letter = 'b' then .ok ⟨some [.obj [("strMeal", .str "Apam balik")]]⟩
    else .error .requestFailed
  searchName := fun _ => .error .requestFailed
  random := .error .requestFailed
  categories := .error .requestFailed
  filter := fun _ => .ok ⟨some [.obj [("idMeal", .str "1")], .obj [("idMeal", .str "2")]]⟩
  lookup := fun id =>
    match id with
    | .str s => if s = "1" then .error .requestFailed else .ok ⟨some [.obj [("idMeal", .str s)]]⟩
    | _ => .error .requestFailed

/-- A stub of the upstream for Scenario D: letter `'a'` yields three meals, every other letter
yields a payload without a `meals` list; the other requests reject. -/
def upstreamScenarioD : Upstream where
  searchLetter := fun letter =>
    if letter = 'a' then .ok ⟨some [.str "m1", .str "m2", .str "m3"]⟩ else .ok ⟨none⟩
  searchName := fun _ => .error .requestFailed
  random := .error .requestFailed
  categories := .error .requestFailed
  filter := fun _ => .error .requestFailed
  lookup := fun _ => .error .requestFailed

/-- A stub of the upstream whose `categories.php` payload has no member `categories`; the other
requests reject. -/
def upstreamNoCategories : Upstream where
  searchLetter := fun _ => .error .requestFailed
  searchName := fun _ => .error .requestFailed
  random := .error .requestFailed
  categories := .ok ⟨.undefined⟩
  filter := fun _ => .error .requestFailed
  lookup := fun _ => .error .requestFailed

/-! ## Basic facts about the store operations -/

theorem get?_assign_self (cache : Store) (key : String) (e : Entry) :
    Store.get? (Store.assign cache key e) key = some e := by
  induction cache with
  | nil => simp [Store.assign, Store.get?]
  | cons p rest ih =>
    obtain ⟨k, x⟩ := p
    by_cases h : k = key
    · simp [Store.assign, Store.get?, h]
    · simp [Store.assign, Store.get?, h, ih]

theorem get?_assign_of_ne (cache : Store) (key key' : String) (e : Entry) (h : key' ≠ key) :
    Store.get? (Store.assign cache key e) key' = Store.get? cache key' := by
  induction cache with
  | nil => simp [Store.assign, Store.get?, Ne.symm h]
  | cons p rest ih =>
    obtain ⟨k, x⟩ := p
    by_cases hk : k = key
    · subst hk
      simp [Store.assign, Store.get?, Ne.symm h]
    · by_cases hk' : k = key'
      · subst hk'
        simp [Store.assign, Store.get?, h]
      · simp [Store.assign, Store.get?, hk, hk', ih]

theorem delete_cons (k : String) (x : Entry) (rest : Store) (key : String) :
    Store.delete ((k, x) :: rest) key =
      if k = key then Store.delete rest key else (k, x) :: Store.delete rest key := by
  by_cases h : k = key <;> simp [Store.delete, List.filter_cons, h]

theorem get?_delete_self (cache : Store) (key : String) :
    Store.get? (Store.delete cache key) key = none := by
  induction cache with
  | nil => simp [Store.delete, Store.get?]
  | cons p rest ih =>
    obtain ⟨k, x⟩ := p
    by_cases h : k = key
    · simpa [Store.delete, h] using ih
    · simpa [Store.delete, Store.get?, h] using ih

theorem get?_delete_of_ne (cache : Store) (key key' : String) (h : key' ≠ key) :
    Store.get? (Store.delete cache key) key' = Store.get? cache key' := by
  induction cache with
  | nil => simp [Store.delete, Store.get?]
  | cons p rest ih =>
    obtain ⟨k, x⟩ := p
    by_cases hk : k = key
    · subst hk
      simpa [Store.delete, Store.get?, Ne.symm h] using ih
    · by_cases hk' : k = key'
      · subst hk'
        simp [delete_cons, Store.get?, h]
      · simpa [delete_cons, Store.get?, hk, hk'] using ih

theorem get?_eq_none_iff (cache : Store) (key : String) :
    Store.get? cache key = none ↔ key ∉ Store.keys cache := by
  induction cache with
  | nil => simp [Store.get?, Store.keys]
  | cons p rest ih =>
    obtain ⟨k, x⟩ := p
    by_cases h : k = key
    · simp [Store.get?, Store.keys, h]
    · have ih' : Store.get? rest key = none ↔ key ∉ List.map Prod.fst rest := ih
      simp [Store.get?, Store.keys, h, ih', Ne.symm h]

theorem get?_of_mem (cache : Store) (hnd : (Store.keys cache).Nodup) (p : String × Entry)
    (hp : p ∈ cache) : Store.get? cache p.1 = some p.2 := by
  induction cache with
  | nil => simp at hp
  | cons q rest ih =>
    obtain ⟨k, x⟩ := q
    have hnd' : k ∉ List.map Prod.fst rest ∧ (List.map Prod.fst rest).Nodup := by
      simpa [Store.keys] using hnd
    rcases List.mem_cons.mp hp with h | h
    · subst h
      simp [Store.get?]
    · have hne : k ≠ p.1 := by
        intro hk
        exact hnd'.1 (hk ▸ List.mem_map_of_mem Prod.fst h)
      simpa [Store.get?, hne] using ih hnd'.2 h

theorem mem_of_get? (cache : Store) (key : String) (e : Entry)
    (h : Store.get? cache key = some e) : (key, e) ∈ cache := by
  induction cache with
  | nil => simp [Store.get?] at h
  | cons q rest ih =>
    obtain ⟨k, x⟩ := q
    by_cases hk : k = key
    · subst hk
      simp [Store.get?] at h
      simp [h]
    · simp [Store.get?, hk] at h
      exact List.mem_cons_of_mem _ (ih h)

theorem length_assign_of_mem (cache : Store) (key : String) (e : Entry)
    (h : key ∈ Store.keys cache) : (Store.assign cache key e).length = cache.length := by
  induction cache with
  | nil => simp [Store.keys] at h
  | cons p rest ih =>
    obtain ⟨k, x⟩ := p
    by_cases hk : k = key
    · simp [Store.assign, hk]
    · have h' : key ∈ Store.keys rest := by
        simpa [Store.keys, Ne.symm hk] using h
      simp [Store.assign, hk, ih h']

theorem length_assign_of_not_mem (cache : Store) (key : String) (e : Entry)
    (h : key ∉ Store.keys cache) : (Store.assign cache key e).length = cache.length + 1 := by
  induction cache with
  | nil => simp [Store.assign]
  | cons p rest ih =>
    obtain ⟨k, x⟩ := p
    have h' : ¬ key = k ∧ key ∉ Store.keys rest := by
      simpa [Store.keys] using h
    simp [Store.assign, Ne.symm h'.1, ih h'.2]

theorem length_assign_le (cache : Store) (key : String) (e : Entry) :
    (Store.assign cache key e).length ≤ cache.length + 1 := by
  by_cases h : key ∈ Store.keys cache
  · rw [length_assign_of_mem cache key e h]
    exact Nat.le_succ _
  · rw [length_assign_of_not_mem cache key e h]

theorem keys_assign_of_not_mem (cache : Store) (key : String) (e : Entry)
    (h : key ∉ Store.keys cache) : Store.assign cache key e = cache ++ [(key, e)] := by
  induction cache with
  | nil => simp [Store.assign]
  | cons p rest ih =>
    obtain ⟨k, x⟩ := p
    have h' : ¬ key = k ∧ key ∉ Store.keys rest := by
      simpa [Store.keys] using h
    simp [Store.assign, Ne.symm h'.1, ih h'.2]

theorem length_delete_lt (cache : Store) (key : String) (h : key ∈ Store.keys cache) :
    (Store.delete cache key).length < cache.length := by
  induction cache with
  | nil => simp [Store.keys] at h
  | cons p rest ih =>
    obtain ⟨k, x⟩ := p
    by_cases hk : k = key
    · have : (List.filter (fun p => decide (p.1 ≠ key)) rest).length ≤ rest.length :=
        List.length_filter_le _ _
      simpa [Store.delete, hk] using Nat.lt_succ_of_le this
    · have h' : key ∈ Store.keys rest := by
        simpa [Store.keys, Ne.symm hk] using h
      simpa [Store.delete, hk] using ih h'

theorem length_delete_of_nodup (cache : Store) (key : String)
    (hnd : (Store.keys cache).Nodup) (h : key ∈ Store.keys cache) :
    (Store.delete cache key).length + 1 = cache.length := by
  induction cache with
  | nil => simp [Store.keys] at h
  | cons p rest ih =>
    obtain ⟨k, x⟩ := p
    have hnd' : k ∉ List.map Prod.fst rest ∧ (List.map Prod.fst rest).Nodup := by
      simpa [Store.keys] using hnd
    by_cases hk : k = key
    · subst hk
      have hall : Store.delete rest k = rest := by
        apply List.filter_eq_self.mpr
        intro q hq
        have : q.1 ≠ k := fun hq1 => hnd'.1 (hq1 ▸ List.mem_map_of_mem Prod.fst hq)
        simpa using this
      simp [delete_cons, hall]
    · have h' : key ∈ Store.keys rest := by
        simpa [Store.keys, Ne.symm hk] using h
      simpa [Store.delete, hk] using ih hnd'.2 h'

/-! ## The reducer picks an entry of least stored time -/

theorem foldl_older_mem (rest : Store) (a : String × Entry) :
    rest.foldl older a ∈ a :: rest := by
  induction rest generalizing a with
  | nil => simp
  | cons b rest ih =>
    have h := ih (older a b)
    rcases List.mem_cons.mp h with h1 | h1
    · rw [List.foldl_cons, h1]
      unfold older
      split <;> simp
    · rw [List.foldl_cons]
      exact List.mem_cons_of_mem _ (List.mem_cons_of_mem _ h1)

theorem foldl_older_le (rest : Store) (a : String × Entry) :
    ∀ p ∈ a :: rest, (rest.foldl older a).2.time ≤ p.2.time := by
  induction rest generalizing a with
  | nil => simp
  | cons b rest ih =>
    intro p hp
    have h := ih (older a b)
    have hab : (older a b).2.time ≤ a.2.time ∧ (older a b).2.time ≤ b.2.time := by
      unfold older
      split <;> constructor <;> omega
    rw [List.foldl_cons]
    rcases List.mem_cons.mp hp with h1 | h1
    · subst h1
      exact le_trans (h _ (List.mem_cons_self _ _)) hab.1
    · rcases List.mem_cons.mp h1 with h2 | h2
      · subst h2
        exact le_trans (h _ (List.mem_cons_self _ _)) hab.2
      · exact h _ (List.mem_cons_of_mem _ h2)

theorem oldestKey_isSome (cache : Store) (h : 0 < cache.length) :
    ∃ victim, oldestKey cache = some victim := by
  cases cache with
  | nil => simp at h
  | cons a rest => exact ⟨_, rfl⟩

theorem oldestKey_mem (cache : Store) (victim : String × Entry)
    (h : oldestKey cache = some victim) : victim ∈ cache := by
  cases cache with
  | nil => simp [oldestKey] at h
  | cons a rest =>
    simp only [oldestKey, Option.some.injEq] at h
    rw [← h]
    exact foldl_older_mem rest a

theorem oldestKey_le (cache : Store) (victim : String × Entry)
    (h : oldestKey cache = some victim) : ∀ p ∈ cache, victim.2.time ≤ p.2.time := by
  cases cache with
  | nil => simp [oldestKey] at h
  | cons a rest =>
    simp only [oldestKey, Option.some.injEq] at h
    rw [← h]
    exact foldl_older_le rest a

/-! ## What one `setCache` does -/

theorem keys_length (cache : Store) : (Store.keys cache).length = cache.length := by
  simp [Store.keys]

theorem setCacheCap_below (maxSize : Nat) (cache : Store) (key : String) (data : JsVal)
    (now : Int) (h : cache.length < maxSize) :
    setCacheCap maxSize cache key data now = .ok (Store.assign cache key ⟨data, now⟩) := by
  have h' : ¬ maxSize ≤ (Store.keys cache).length := by
    rw [keys_length]
    exact Nat.not_le.mpr h
  simp [setCacheCap, h']

theorem setCacheCap_full (maxSize : Nat) (cache : Store) (key : String) (data : JsVal)
    (now : Int) (hpos : 0 < maxSize) (h : maxSize ≤ cache.length) :
    ∃ victim, oldestKey cache = some victim ∧
      setCacheCap maxSize cache key data now =
        .ok (Store.assign (Store.delete cache victim.1) key ⟨data, now⟩) := by
  obtain ⟨victim, hv⟩ := oldestKey_isSome cache (Nat.lt_of_lt_of_le hpos h)
  refine ⟨victim, hv, ?_⟩
  have h' : maxSize ≤ (Store.keys cache).length := by
    rw [keys_length]
    exact h
  simp [setCacheCap, h', hv]

theorem setCacheCap_returns (maxSize : Nat) (cache : Store) (key : String) (data : JsVal)
    (now : Int) (hpos : 0 < maxSize) :
    ∃ cache', setCacheCap maxSize cache key data now = .ok cache' ∧
      Store.get? cache' key = some ⟨data, now⟩ ∧ cache'.length ≤ max cache.length maxSize := by
  by_cases h : cache.length < maxSize
  · refine ⟨_, setCacheCap_below maxSize cache key data now h, get?_assign_self _ _ _, ?_⟩
    have := length_assign_le cache key ⟨data, now⟩
    omega
  · obtain ⟨victim, hv, hset⟩ :=
      setCacheCap_full maxSize cache key data now hpos (Nat.not_lt.mp h)
    refine ⟨_, hset, get?_assign_self _ _ _, ?_⟩
    have h1 := length_assign_le (Store.delete cache victim.1) key ⟨data, now⟩
    have hmem : victim.1 ∈ Store.keys cache :=
      List.mem_map_of_mem Prod.fst (oldestKey_mem cache victim hv)
    have h2 := length_delete_lt cache victim.1 hmem
    omega

theorem setCache_returns (cache : Store) (key : String) (data : JsVal) (now : Int) :
    ∃ cache', setCache cache key data now = .ok cache' ∧
      Store.get? cache' key = some ⟨data, now⟩ ∧
      cache'.length ≤ max cache.length MAX_CACHE_SIZE :=
  setCacheCap_returns MAX_CACHE_SIZE cache key data now (by decide)

theorem getCache_snd (cache : Store) (key : String) (now : Int) :
    (getCache cache key now).2 = cache := by
  unfold getCache
  split
  · split <;> rfl
  · rfl

/-! ## C1: a write followed by a read of the same key -/

/-- C1.  For every store, key `k`, value `v`, write time `t0` and read time `t`:
`setCache(k, v)` at `t0` returns, and `getCache(k)` at `t` on the resulting store gives `v` when
`t - t0 < CACHE_EXPIRY` and `null` otherwise, whether or not the write evicted an entry. -/
theorem put_then_get_under_ttl (cache : Store) (k : String) (v : JsVal) (t0 t : Int) :
    ∃ cache', setCache cache k v t0 = .ok cache' ∧
      (getCache cache' k t).1 = if t - t0 < CACHE_EXPIRY then v else .null := by
  obtain ⟨cache', hset, hget, _⟩ := setCache_returns cache k v t0
  refine ⟨cache', hset, ?_⟩
  unfold getCache
  rw [hget]
  by_cases h : t - t0 < CACHE_EXPIRY <;> simp [h]

/-! ## C2: the capacity invariant -/

theorem step_length_le (cache : Store) (op : CacheOp) (h : cache.length ≤ MAX_CACHE_SIZE) :
    (CacheOp.step cache op).length ≤ MAX_CACHE_SIZE := by
  cases op with
  | set key data now =>
    obtain ⟨cache', hset, _, hlen⟩ := setCache_returns cache key data now
    simp only [CacheOp.step, hset]
    omega
  | get key now =>
    simp only [CacheOp.step, getCache_snd]
    exact h

theorem foldl_step_length_le (ops : List CacheOp) (cache : Store)
    (h : cache.length ≤ MAX_CACHE_SIZE) :
    (ops.foldl CacheOp.step cache).length ≤ MAX_CACHE_SIZE := by
  induction ops generalizing cache with
  | nil => exact h
  | cons op rest ih => exact ih _ (step_length_le cache op h)

/-- C2.  Starting from the empty store, after every finite sequence of `setCache` and `getCache`
calls, with any keys and any clock readings, the store holds at most `MAX_CACHE_SIZE` entries. -/
theorem capacity_never_exceeded (ops : List CacheOp) :
    (runOps ops).length ≤ MAX_CACHE_SIZE :=
  foldl_step_length_le ops [] (Nat.zero_le _)

/-! ## Uniqueness of keys is preserved -/

theorem keys_assign_of_mem (cache : Store) (key : String) (e : Entry)
    (h : key ∈ Store.keys cache) : Store.keys (Store.assign cache key e) = Store.keys cache := by
  induction cache with
  | nil => simp [Store.keys] at h
  | cons p rest ih =>
    obtain ⟨k, x⟩ := p
    by_cases hk : k = key
    · simp [Store.assign, Store.keys, hk]
    · have h' : key ∈ Store.keys rest := by
        simpa [Store.keys, Ne.symm hk] using h
      have ih' : List.map Prod.fst (Store.assign rest key e) = List.map Prod.fst rest := ih h'
      simp [Store.assign, Store.keys, hk, ih']

theorem nodup_assign (cache : Store) (key : String) (e : Entry)
    (hnd : (Store.keys cache).Nodup) : (Store.keys (Store.assign cache key e)).Nodup := by
  by_cases h : key ∈ Store.keys cache
  · rw [keys_assign_of_mem cache key e h]
    exact hnd
  · rw [keys_assign_of_not_mem cache key e h]
    have : Store.keys (cache ++ [(key, e)]) = Store.keys cache ++ [key] := by
      simp [Store.keys]
    rw [this]
    exact List.Nodup.append hnd (List.nodup_singleton key) (by simpa using h)

theorem nodup_delete (cache : Store) (key : String)
    (hnd : (Store.keys cache).Nodup) : (Store.keys (Store.delete cache key)).Nodup :=
  List.Nodup.sublist (List.Sublist.map Prod.fst (List.filter_sublist cache)) hnd

theorem not_mem_keys_delete (cache : Store) (key : String) :
    key ∉ Store.keys (Store.delete cache key) :=
  (get?_eq_none_iff _ _).mp (get?_delete_self cache key)

theorem mem_keys_delete_of_ne (cache : Store) (key key' : String) (h : key' ≠ key) :
    key' ∈ Store.keys (Store.delete cache key) ↔ key' ∈ Store.keys cache := by
  have h1 := get?_eq_none_iff (Store.delete cache key) key'
  have h2 := get?_eq_none_iff cache key'
  rw [get?_delete_of_ne cache key key' h] at h1
  constructor
  · intro hm
    by_contra hc
    exact (h1.mp (h2.mpr hc)) hm
  · intro hm
    by_contra hc
    exact (h2.mp (h1.mpr hc)) hm

theorem setCacheCap_nodup (maxSize : Nat) (cache cache' : Store) (key : String) (data : JsVal)
    (now : Int) (hnd : (Store.keys cache).Nodup)
    (h : setCacheCap maxSize cache key data now = .ok cache') : (Store.keys cache').Nodup := by
  unfold setCacheCap at h
  split at h
  · split at h
    · cases h
    · simp only [Except.ok.injEq] at h
      rw [← h]
      exact nodup_assign _ _ _ (nodup_delete cache _ hnd)
  · simp only [Except.ok.injEq] at h
    rw [← h]
    exact nodup_assign _ _ _ hnd

theorem step_nodup (cache : Store) (op : CacheOp) (hnd : (Store.keys cache).Nodup) :
    (Store.keys (CacheOp.step cache op)).Nodup := by
  cases op with
  | set key data now =>
    simp only [CacheOp.step]
    cases h : setCache cache key data now with
    | error e => exact hnd
    | ok cache' => exact setCacheCap_nodup MAX_CACHE_SIZE cache cache' key data now hnd h
  | get key now =>
    simp only [CacheOp.step, getCache_snd]
    exact hnd

theorem foldl_step_nodup (ops : List CacheOp) (cache : Store) (hnd : (Store.keys cache).Nodup) :
    (Store.keys (ops.foldl CacheOp.step cache)).Nodup := by
  induction ops generalizing cache with
  | nil => exact hnd
  | cons op rest ih => exact ih _ (step_nodup cache op hnd)

/-- Every store reached from the empty one has pairwise distinct keys. -/
theorem runOps_nodup (ops : List CacheOp) : (Store.keys (runOps ops)).Nodup :=
  foldl_step_nodup ops [] List.nodup_nil

/-! ## C3: the entry evicted by a write into a full store -/

/-- C3.  For every store with pairwise distinct keys holding exactly `MAX_CACHE_SIZE` entries and
every key `k` not in it, `setCache(k, v)` returns and removes exactly one entry, the `victim`:
the victim was in the store, no entry of the store had a smaller stored time, afterwards the
victim's key is absent, `k` holds `v` with the current time, every other key holds what it held
before, and the store again has `MAX_CACHE_SIZE` pairwise distinct keys. -/
theorem eviction_victim (cache : Store) (k : String) (v : JsVal) (now : Int)
    (hnd : (Store.keys cache).Nodup) (hfull : cache.length = MAX_CACHE_SIZE)
    (hk : k ∉ Store.keys cache) :
    ∃ victim cache', setCache cache k v now = .ok cache' ∧
      victim ∈ cache ∧
      (∀ p ∈ cache, victim.2.time ≤ p.2.time) ∧
      (∀ key, Store.get? cache' key =
        if key = k then some ⟨v, now⟩
        else if key = victim.1 then none
        else Store.get? cache key) ∧
      cache' = Store.delete cache victim.1 ++ [(k, ⟨v, now⟩)] ∧
      (Store.delete cache victim.1).length + 1 = cache.length ∧
      cache'.length = MAX_CACHE_SIZE ∧
      (Store.keys cache').Nodup := by
  obtain ⟨victim, hv, hset⟩ :=
    setCacheCap_full MAX_CACHE_SIZE cache k v now (by decide) (Nat.le_of_eq hfull.symm)
  have hmem : victim ∈ cache := oldestKey_mem cache victim hv
  have hkmem : victim.1 ∈ Store.keys cache := List.mem_map_of_mem Prod.fst hmem
  have hne : k ≠ victim.1 := fun h => hk (h ▸ hkmem)
  have hk' : k ∉ Store.keys (Store.delete cache victim.1) := by
    rw [mem_keys_delete_of_ne cache victim.1 k hne]
    exact hk
  have hlen := length_delete_of_nodup cache victim.1 hnd hkmem
  refine ⟨victim, _, hset, hmem, oldestKey_le cache victim hv, ?_, ?_, hlen, ?_, ?_⟩
  · intro key
    by_cases h1 : key = k
    · subst h1
      simp [get?_assign_self]
    · rw [get?_assign_of_ne _ _ _ _ h1]
      by_cases h2 : key = victim.1
      · rw [h2]
        simp [get?_delete_self, Ne.symm hne]
      · simp [h1, h2, get?_delete_of_ne cache victim.1 key h2]
  · exact keys_assign_of_not_mem _ _ _ hk'
  · rw [length_assign_of_not_mem _ _ _ hk']
    omega
  · exact nodup_assign _ _ _ (nodup_delete cache victim.1 hnd)

set_option maxRecDepth 100000 in
/-- C3 at the store `sampleFull` and the new key `"category_Beef"`. -/
theorem eviction_victim_witness :
    (Store.keys sampleFull).Nodup ∧ sampleFull.length = MAX_CACHE_SIZE ∧
    "category_Beef" ∉ Store.keys sampleFull ∧
    ∃ victim cache', setCache sampleFull "category_Beef" (.arr []) 100 = .ok cache' ∧
      victim ∈ sampleFull ∧
      (∀ p ∈ sampleFull, victim.2.time ≤ p.2.time) ∧
      (∀ key, Store.get? cache' key =
        if key = "category_Beef" then some ⟨.arr [], 100⟩
        else if key = victim.1 then none
        else Store.get? sampleFull key) ∧
      cache' = Store.delete sampleFull victim.1 ++ [("category_Beef", ⟨.arr [], 100⟩)] ∧
      (Store.delete sampleFull victim.1).length + 1 = sampleFull.length ∧
      cache'.length = MAX_CACHE_SIZE ∧
      (Store.keys cache').Nodup :=
  ⟨by decide, by decide, by decide,
    eviction_victim sampleFull "category_Beef" (.arr []) 100 (by decide) (by decide) (by decide)⟩

/-! ## C4: overwriting a key -/

set_option maxRecDepth 100000 in
/-- C4 fails at capacity.  `sampleFull` holds `MAX_CACHE_SIZE` distinct keys, among them
`"search_1"` and `"search_0"`; `setCache("search_1", 7)` at time `100` deletes `"search_0"` and
leaves 49 entries. -/
theorem overwrite_at_capacity_evicts :
    (Store.keys sampleFull).Nodup ∧ sampleFull.length = MAX_CACHE_SIZE ∧
    "search_1" ∈ Store.keys sampleFull ∧ "search_0" ∈ Store.keys sampleFull ∧
    ∃ cache', setCache sampleFull "search_1" (.num 7) 100 = .ok cache' ∧
      "search_0" ∉ Store.keys cache' ∧ cache'.length = 49 ∧
      cache'.length ≠ sampleFull.length :=
  ⟨by decide, by decide, by decide, by decide,
    Store.assign (Store.delete sampleFull "search_0") "search_1" ⟨.num 7, 100⟩,
    rfl, by decide, by decide, by decide⟩

/-- C4, amended.  For every store holding fewer than `MAX_CACHE_SIZE` entries and every key `k`
already present, `setCache(k, v)` returns and removes no entry: the keys and their number are
unchanged, every other key holds what it held before, and `k` holds `v` with the current time. -/
theorem overwrite_below_capacity (cache : Store) (k : String) (v : JsVal) (now : Int)
    (hlt : cache.length < MAX_CACHE_SIZE) (hk : k ∈ Store.keys cache) :
    ∃ cache', setCache cache k v now = .ok cache' ∧
      cache'.length = cache.length ∧
      Store.keys cache' = Store.keys cache ∧
      (∀ key, key ≠ k → Store.get? cache' key = Store.get? cache key) ∧
      Store.get? cache' k = some ⟨v, now⟩ :=
  ⟨_, setCacheCap_below MAX_CACHE_SIZE cache k v now hlt,
    length_assign_of_mem cache k _ hk, keys_assign_of_mem cache k _ hk,
    fun key h => get?_assign_of_ne cache k key _ h, get?_assign_self cache k _⟩

/-- C4, amended, at the store `sampleTwo` and its key `"all"`. -/
theorem overwrite_below_capacity_witness :
    sampleTwo.length < MAX_CACHE_SIZE ∧ "all" ∈ Store.keys sampleTwo ∧
    ∃ cache', setCache sampleTwo "all" (.arr [.num 1]) 5 = .ok cache' ∧
      cache'.length = sampleTwo.length ∧
      Store.keys cache' = Store.keys sampleTwo ∧
      (∀ key, key ≠ "all" → Store.get? cache' key = Store.get? sampleTwo key) ∧
      Store.get? cache' "all" = some ⟨.arr [.num 1], 5⟩ :=
  ⟨by decide, by decide,
    overwrite_below_capacity sampleTwo "all" (.arr [.num 1]) 5 (by decide) (by decide)⟩

/-! ## C6: reading a stale entry -/

/-- C6 fails.  In `sampleTwo` the entry of `"all"` was stored at time `0`; at time
`CACHE_EXPIRY` it is stale, `getCache("all")` returns `null`, and the store after the call
still holds the key. -/
theorem stale_entry_not_purged :
    "all" ∈ Store.keys sampleTwo ∧ CACHE_EXPIRY ≤ CACHE_EXPIRY - 0 ∧
    "all" ∈ Store.keys (getCache sampleTwo "all" CACHE_EXPIRY).2 :=
  ⟨by decide, by decide, by decide⟩

/-- C6, amended.  For every store and key `k` whose entry is stale
(`now - time >= CACHE_EXPIRY`), `getCache(k)` returns `null` and leaves the store exactly as it
was: the stale entry stays in place. -/
theorem stale_read_is_miss (cache : Store) (k : String) (now : Int) (e : Entry)
    (he : Store.get? cache k = some e) (hstale : CACHE_EXPIRY ≤ now - e.time) :
    (getCache cache k now).1 = .null ∧ (getCache cache k now).2 = cache ∧
      Store.get? (getCache cache k now).2 k = some e := by
  have hnot : ¬ now - e.time < CACHE_EXPIRY := not_lt.mpr hstale
  refine ⟨?_, getCache_snd cache k now, ?_⟩
  · simp [getCache, he, hnot]
  · rw [getCache_snd]
    exact he

/-- C6, amended, at `sampleTwo`, key `"all"` and time `CACHE_EXPIRY`. -/
theorem stale_read_is_miss_witness :
    Store.get? sampleTwo "all" = some ⟨.arr [], 0⟩ ∧ CACHE_EXPIRY ≤ CACHE_EXPIRY - 0 ∧
    (getCache sampleTwo "all" CACHE_EXPIRY).1 = .null ∧
    (getCache sampleTwo "all" CACHE_EXPIRY).2 = sampleTwo ∧
    Store.get? (getCache sampleTwo "all" CACHE_EXPIRY).2 "all" = some ⟨.arr [], 0⟩ :=
  ⟨rfl, by decide, stale_read_is_miss sampleTwo "all" CACHE_EXPIRY ⟨.arr [], 0⟩ rfl (by decide)⟩

/-! ## C5: consecutive writes of distinct keys into the empty store -/

theorem keys_map_entry (ws : List Write) :
    Store.keys (ws.map Write.entry) = ws.map Write.key := by
  simp [Store.keys, Write.entry, Function.comp_def]

theorem setCacheSeq_below (maxSize : Nat) (ws : List Write) (cache : Store)
    (hlen : cache.length + ws.length ≤ maxSize)
    (hnd : (Store.keys cache ++ ws.map Write.key).Nodup) :
    setCacheSeq maxSize cache ws = .ok (cache ++ ws.map Write.entry) := by
  induction ws generalizing cache with
  | nil => simp [setCacheSeq]
  | cons w rest ih =>
    have hlt : cache.length < maxSize := by
      simp only [List.length_cons] at hlen
      omega
    have hnot : w.key ∉ Store.keys cache := by
      intro hmem
      have hdis := (List.nodup_append.mp hnd).2.2
      exact hdis hmem (by simp)
    have hstep := setCacheCap_below maxSize cache w.key w.data w.now hlt
    rw [keys_assign_of_not_mem cache w.key _ hnot] at hstep
    have hlen' : (cache ++ [(w.key, (⟨w.data, w.now⟩ : Entry))]).length + rest.length ≤ maxSize := by
      simp only [List.length_cons, List.length_append, List.length_nil] at hlen ⊢
      omega
    have hnd' : (Store.keys (cache ++ [(w.key, (⟨w.data, w.now⟩ : Entry))]) ++
        rest.map Write.key).Nodup := by
      have : Store.keys (cache ++ [(w.key, (⟨w.data, w.now⟩ : Entry))]) ++ rest.map Write.key =
          Store.keys cache ++ (w :: rest).map Write.key := by
        simp [Store.keys]
      rw [this]
      exact hnd
    have := ih _ hlen' hnd'
    simp only [setCacheSeq, hstep, this]
    simp [Write.entry]

theorem setCacheSeq_append (maxSize : Nat) (xs ys : List Write) (cache cache' : Store)
    (h : setCacheSeq maxSize cache xs = .ok cache') :
    setCacheSeq maxSize cache (xs ++ ys) = setCacheSeq maxSize cache' ys := by
  induction xs generalizing cache with
  | nil =>
    simp only [setCacheSeq, Except.ok.injEq] at h
    simp [h]
  | cons w rest ih =>
    simp only [setCacheSeq, List.cons_append] at h ⊢
    cases hstep : setCacheCap maxSize cache w.key w.data w.now with
    | error e => simp [hstep] at h
    | ok c =>
      simp only [hstep] at h ⊢
      exact ih c h

theorem delete_head_of_nodup (p : String × Entry) (rest : Store)
    (hnd : (Store.keys (p :: rest)).Nodup) : Store.delete (p :: rest) p.1 = rest := by
  obtain ⟨k, x⟩ := p
  have hnd' : k ∉ List.map Prod.fst rest ∧ (List.map Prod.fst rest).Nodup := by
    simpa [Store.keys] using hnd
  have hall : Store.delete rest k = rest := by
    apply List.filter_eq_self.mpr
    intro q hq
    have : q.1 ≠ k := fun hq1 => hnd'.1 (hq1 ▸ List.mem_map_of_mem Prod.fst hq)
    simpa using this
  simp [delete_cons, hall]

theorem getCache_of_get? (cache : Store) (key : String) (now : Int) (e : Entry)
    (he : Store.get? cache key = some e) (hfresh : now - e.time < CACHE_EXPIRY) :
    (getCache cache key now).1 = e.data := by
  simp [getCache, he, hfresh]

theorem getCache_of_not_mem (cache : Store) (key : String) (now : Int)
    (h : key ∉ Store.keys cache) : (getCache cache key now).1 = .null := by
  simp [getCache, (get?_eq_none_iff cache key).mpr h]

/-- C5 fails when clock readings tie.  With capacity 2, `setCache("a", 1)`, `setCache("b", 2)`,
`setCache("c", 3)` all at time `0` (distinct keys, non-decreasing readings, reads at time `0`):
the reducer keeps `b` on the tie `0 < 0`, so `"b"` is evicted; `getCache("a")` returns `1`
instead of absent and `getCache("b")` returns `null` instead of `2`. -/
theorem tie_evicts_later_write :
    ∃ cache', setCacheSeq 2 [] [⟨"a", .num 1, 0⟩, ⟨"b", .num 2, 0⟩, ⟨"c", .num 3, 0⟩] = .ok cache' ∧
      (getCache cache' "a" 0).1 = .num 1 ∧ (getCache cache' "a" 0).1 ≠ .null ∧
      (getCache cache' "b" 0).1 = .null ∧ (getCache cache' "b" 0).1 ≠ .num 2 :=
  ⟨[("a", ⟨.num 1, 0⟩), ("c", ⟨.num 3, 0⟩)], rfl, rfl, fun h => JsVal.noConfusion h, rfl,
    fun h => JsVal.noConfusion h⟩

/-- C5, amended.  For every capacity `C ≥ 1` and every `C + 1` writes `first :: later` of
pairwise distinct keys made in order into the empty store, where the clock reading of the first
write is strictly smaller than that of every later write (as when readings strictly increase),
and every later entry is read before its TTL elapses: the writes all return, `getCache` of the
first key returns `null`, and `getCache` of each later key returns the value written for it. -/
theorem insertion_order_eviction (C : Nat) (first : Write) (later : List Write) (t : Int)
    (hC : 1 ≤ C) (hlen : later.length = C)
    (hkeys : ((first :: later).map Write.key).Nodup)
    (htime : ∀ w ∈ later, first.now < w.now)
    (hfresh : ∀ w ∈ later, t - w.now < CACHE_EXPIRY) :
    ∃ cache', setCacheSeq C [] (first :: later) = .ok cache' ∧
      (getCache cache' first.key t).1 = .null ∧
      ∀ w ∈ later, (getCache cache' w.key t).1 = w.data := by
  have hne : later ≠ [] := by
    intro h
    rw [h] at hlen
    simp at hlen
    omega
  obtain ⟨mid, last, hlater⟩ : ∃ mid last, later = mid ++ [last] :=
    ⟨later.dropLast, later.getLast hne, (List.dropLast_append_getLast hne).symm⟩
  subst hlater
  have hmidlen : mid.length + 1 = C := by simpa using hlen
  -- the first `C` writes fill the store without eviction
  have hnd1 : ((first :: mid).map Write.key).Nodup := by
    have hsub : List.Sublist ((first :: mid).map Write.key)
        ((first :: (mid ++ [last])).map Write.key) :=
      List.Sublist.map _ (List.Sublist.cons₂ _ (List.sublist_append_left mid [last]))
    exact List.Nodup.sublist hsub hkeys
  have hfill : setCacheSeq C [] (first :: mid) = .ok ((first :: mid).map Write.entry) := by
    have := setCacheSeq_below C (first :: mid) [] (by simp; omega) (by simpa [Store.keys] using hnd1)
    simpa using this
  have hsplit : first :: (mid ++ [last]) = (first :: mid) ++ [last] := by simp
  -- the last write evicts
  have hfull : C ≤ ((first :: mid).map Write.entry).length := by simp; omega
  obtain ⟨victim, hv, hset⟩ := setCacheCap_full C ((first :: mid).map Write.entry)
    last.key last.data last.now hC hfull
  have hvmem := oldestKey_mem _ victim hv
  have hvle := oldestKey_le _ victim hv first.entry (by simp)
  have hvictim : victim = first.entry := by
    rcases List.mem_map.mp hvmem with ⟨w, hw, hwv⟩
    rcases List.mem_cons.mp hw with h | h
    · rw [← hwv, h]
    · have h1 := htime w (List.mem_append_left _ h)
      rw [← hwv] at hvle
      simp only [Write.entry] at hvle
      omega
  have hnd1' : (Store.keys (first.entry :: mid.map Write.entry)).Nodup := by
    have := keys_map_entry (first :: mid)
    simp only [List.map_cons] at this
    rw [this]
    simpa using hnd1
  have hdel : Store.delete ((first :: mid).map Write.entry) victim.1 = mid.map Write.entry := by
    rw [hvictim]
    exact delete_head_of_nodup first.entry (mid.map Write.entry) hnd1'
  have hkeys' : first.key ∉ (mid ++ [last]).map Write.key ∧
      ((mid ++ [last]).map Write.key).Nodup := by
    simpa using hkeys
  have hlastnot : last.key ∉ Store.keys (mid.map Write.entry) := by
    rw [keys_map_entry]
    intro hmem
    have hnd := hkeys'.2
    rw [List.map_append] at hnd
    exact (List.nodup_append.mp hnd).2.2 hmem (by simp)
  rw [hdel, keys_assign_of_not_mem _ _ _ hlastnot] at hset
  have hfinal : mid.map Write.entry ++ [(last.key, (⟨last.data, last.now⟩ : Entry))] =
      (mid ++ [last]).map Write.entry := by
    simp [Write.entry]
  rw [hfinal] at hset
  refine ⟨(mid ++ [last]).map Write.entry, ?_, ?_, ?_⟩
  · rw [hsplit, setCacheSeq_append C (first :: mid) [last] [] _ hfill]
    simp only [setCacheSeq, hset]
  · apply getCache_of_not_mem
    rw [keys_map_entry]
    exact hkeys'.1
  · intro w hw
    have hndf : (Store.keys ((mid ++ [last]).map Write.entry)).Nodup := by
      rw [keys_map_entry]
      exact hkeys'.2
    have hget := get?_of_mem _ hndf w.entry (List.mem_map_of_mem Write.entry hw)
    exact getCache_of_get? _ w.key t ⟨w.data, w.now⟩ hget (hfresh w hw)

/-- C5, amended, at Scenario B with strictly increasing readings: capacity 2 and the writes
`("a", 1)` at time 0, `("b", 2)` at time 1, `("c", 3)` at time 2, read at time 3. -/
theorem insertion_order_eviction_witness :
    ∃ cache', setCacheSeq 2 [] [⟨"a", .num 1, 0⟩, ⟨"b", .num 2, 1⟩, ⟨"c", .num 3, 2⟩] =
        .ok cache' ∧
      (getCache cache' "a" 3).1 = .null ∧
      ∀ w ∈ [(⟨"b", .num 2, 1⟩ : Write), ⟨"c", .num 3, 2⟩], (getCache cache' w.key 3).1 = w.data :=
  insertion_order_eviction 2 ⟨"a", .num 1, 0⟩ [⟨"b", .num 2, 1⟩, ⟨"c", .num 3, 2⟩] 3
    (by decide) (by decide) (by decide)
    (by intro w hw; simp at hw; rcases hw with h | h <;> subst h <;> decide)
    (by intro w hw; simp at hw; rcases hw with h | h <;> subst h <;> decide)

set_option maxRecDepth 1000000 in
/-- The tie of C5 at the capacity of the code: fifty-one writes of the distinct keys
`"search_0"`, …, `"search_50"`, all at time `0`; the fifty-first evicts `"search_49"`, the first
key is still served. -/
theorem tie_evicts_later_write_at_max :
    ∃ cache', setCacheSeq MAX_CACHE_SIZE []
        ((List.range 51).map (fun i => ⟨"search_" ++ toString i, .num i, 0⟩)) = .ok cache' ∧
      (getCache cache' "search_0" 0).1 = .num 0 ∧
      (getCache cache' "search_49" 0).1 = .null :=
  ⟨_, rfl, rfl, rfl⟩

/-! ## C7: a failed upstream call leaves the store untouched -/

theorem fetchLetters_fails (up : Upstream) (ls : List Char) (allMeals : List JsVal)
    (h : ∃ call ∈ (fetchLetters up ls allMeals).2, up.fails call = true) :
    ∃ e, (fetchLetters up ls allMeals).1 = .error e := by
  induction ls generalizing allMeals with
  | nil =>
    obtain ⟨call, hmem, _⟩ := h
    simp [fetchLetters] at hmem
  | cons letter rest ih =>
    cases hres : up.searchLetter letter with
    | error e => exact ⟨e, by simp [fetchLetters, hres]⟩
    | ok data =>
      obtain ⟨call, hmem, hfail⟩ := h
      simp only [fetchLetters, hres, List.mem_cons] at hmem ⊢
      rcases hmem with hhead | htail
      · rw [hhead] at hfail
        simp [Upstream.fails, hres] at hfail
      · exact ih _ ⟨call, htail, hfail⟩

theorem fetchDetail_fails (up : Upstream) (meal : JsVal)
    (h : ∃ call ∈ (fetchDetail up meal).2, up.fails call = true) :
    ∃ e, (fetchDetail up meal).1 = .error e := by
  obtain ⟨call, hmem, hfail⟩ := h
  unfold fetchDetail at hmem ⊢
  cases hid : idMeal meal with
  | error e => exact ⟨e, rfl⟩
  | ok id =>
    simp only [hid] at hmem ⊢
    cases hres : up.lookup id with
    | error e => exact ⟨e, rfl⟩
    | ok data =>
      simp only [hres] at hmem ⊢
      have hcall : call = .lookup id := by
        rcases data with ⟨_ | _ | _⟩ <;> simpa using hmem
      rw [hcall] at hfail
      simp [Upstream.fails, hres] at hfail

theorem promiseAll_rejects (rs : List (Except JsError JsVal))
    (h : ∃ r ∈ rs, ∃ e, r = .error e) : ∃ e, promiseAll rs = .error e := by
  induction rs with
  | nil =>
    obtain ⟨r, hmem, _⟩ := h
    simp at hmem
  | cons r rest ih =>
    cases r with
    | error e => exact ⟨e, rfl⟩
    | ok v =>
      obtain ⟨r', hmem, e, he⟩ := h
      rcases List.mem_cons.mp hmem with hhead | htail
      · rw [he] at hhead
        cases hhead
      · obtain ⟨e', he'⟩ := ih ⟨r', htail, e, he⟩
        exact ⟨e', by simp [promiseAll, he']⟩

/-- C7.  For the list-all handler and for the list-by-category handler: if an upstream request
issued while serving the request rejects (a letter search, the category filter, or a lookup by
id), the handler answers with status 500 and its `{ error: … }` body, and the store after the
request is the store before it. -/
theorem write_only_on_full_success (up : Upstream) (cache : Store) (tRead tWrite : Int)
    (categoryName : String) :
    ((∃ call ∈ (getAll up cache tRead tWrite).calls, up.fails call = true) →
      (getAll up cache tRead tWrite).status = 500 ∧
      (getAll up cache tRead tWrite).body = errorBody "Failed to fetch meals" ∧
      (getAll up cache tRead tWrite).cache = cache) ∧
    ((∃ call ∈ (getCategory up cache categoryName tRead tWrite).calls, up.fails call = true) →
      (getCategory up cache categoryName tRead tWrite).status = 500 ∧
      (getCategory up cache categoryName tRead tWrite).body =
        errorBody "Failed to fetch meals by category" ∧
      (getCategory up cache categoryName tRead tWrite).cache = cache) := by
  constructor
  · intro h
    unfold getAll at h ⊢
    by_cases hhit : (getCache cache (cacheKey .listAll) tRead).1.truthy = true
    · obtain ⟨call, hmem, _⟩ := h
      simp [hhit] at hmem
    · simp only [hhit, if_false, Bool.false_eq_true] at h ⊢
      obtain ⟨e, he⟩ := fetchLetters_fails up letters [] (by
        obtain ⟨call, hmem, hfail⟩ := h
        refine ⟨call, ?_, hfail⟩
        revert hmem
        cases (fetchLetters up letters []).1 with
        | error e => exact id
        | ok allMeals =>
          simp only
          cases setCache (getCache cache (cacheKey .listAll) tRead).2 (cacheKey .listAll)
            (.arr (List.take 50 allMeals)) tWrite <;> exact id)
      simp [he, getCache_snd]
  · intro h
    unfold getCategory at h ⊢
    by_cases hhit :
        (getCache cache (cacheKey (.listByCategory categoryName)) tRead).1.truthy = true
    · obtain ⟨call, hmem, _⟩ := h
      simp [hhit] at hmem
    · simp only [hhit, if_false, Bool.false_eq_true] at h ⊢
      cases hres : up.filter categoryName with
      | error e => simp [getCache_snd]
      | ok data =>
        simp only [hres] at h ⊢
        generalize (match data.meals with
          | some ms => List.take 50 ms
          | none => []) = mealsBasic at h ⊢
        have hcalls : ∃ call ∈ (UpstreamCall.filter categoryName ::
            (List.map Prod.snd (List.map (fetchDetail up) mealsBasic)).flatten),
            up.fails call = true := by
          obtain ⟨call, hmem, hfail⟩ := h
          refine ⟨call, ?_, hfail⟩
          revert hmem
          cases promiseAll (List.map Prod.fst (List.map (fetchDetail up) mealsBasic)) with
          | error e => exact id
          | ok fullMeals =>
            simp only
            cases setCache (getCache cache (cacheKey (.listByCategory categoryName)) tRead).2
              (cacheKey (.listByCategory categoryName)) (.arr fullMeals) tWrite <;> exact id
        obtain ⟨call, hmem, hfail⟩ := hcalls
        rcases List.mem_cons.mp hmem with hhead | htail
        · rw [hhead] at hfail
          simp [Upstream.fails, hres] at hfail
        · obtain ⟨l, hl, hcl⟩ := List.mem_flatten.mp htail
          obtain ⟨d, hd, hdl⟩ := List.mem_map.mp hl
          obtain ⟨meal, hmeal, hmd⟩ := List.mem_map.mp hd
          have hrej : ∃ e, (fetchDetail up meal).1 = .error e :=
            fetchDetail_fails up meal ⟨call, by rw [hmd, hdl]; exact hcl, hfail⟩
          obtain ⟨e, he⟩ := promiseAll_rejects
            (List.map Prod.fst (List.map (fetchDetail up) mealsBasic))
            (by
              obtain ⟨e, he⟩ := hrej
              exact ⟨(fetchDetail up meal).1,
                List.mem_map_of_mem Prod.fst (List.mem_map_of_mem (fetchDetail up) hmeal), e, he⟩)
          rw [he]
          exact ⟨rfl, rfl, getCache_snd _ _ _⟩

/-- C7 at Scenario E, on the empty store: the letter search for `'c'` rejects during list-all and
the lookup of id `"1"` rejects during list-by-category; both handlers answer 500 and the store
stays empty. -/
theorem write_only_on_full_success_witness :
    ((getAll upstreamScenarioE [] 0 0).status = 500 ∧
      (getAll upstreamScenarioE [] 0 0).body = errorBody "Failed to fetch meals" ∧
      (getAll upstreamScenarioE [] 0 0).cache = []) ∧
    ((getCategory upstreamScenarioE [] "Seafood" 0 0).status = 500 ∧
      (getCategory upstreamScenarioE [] "Seafood" 0 0).body =
        errorBody "Failed to fetch meals by category" ∧
      (getCategory upstreamScenarioE [] "Seafood" 0 0).cache = []) :=
  ⟨(write_only_on_full_success upstreamScenarioE [] 0 0 "Seafood").1
      ⟨.searchLetter 'c', by
        rw [show (getAll upstreamScenarioE [] 0 0).calls =
          [.searchLetter 'a', .searchLetter 'b', .searchLetter 'c'] from rfl]
        simp, rfl⟩,
    (write_only_on_full_success upstreamScenarioE [] 0 0 "Seafood").2
      ⟨.lookup (.str "1"), by
        rw [show (getCategory upstreamScenarioE [] "Seafood" 0 0).calls =
          [.filter "Seafood", .lookup (.str "1"), .lookup (.str "2")] from rfl]
        simp, rfl⟩⟩

/-! ## C8: what list-all returns and stores -/

theorem letters_eq : letters = "abcdefghijklmnopqrstuvwxyz".toList := by decide

theorem fetchLetters_resolves (up : Upstream) (ls : List Char) (allMeals : List JsVal)
    (hok : ∀ letter ∈ ls, up.fails (.searchLetter letter) = false) :
    fetchLetters up ls allMeals =
      (.ok (allMeals ++ (ls.map (letterMeals up)).flatten), ls.map .searchLetter) := by
  induction ls generalizing allMeals with
  | nil => simp [fetchLetters]
  | cons letter rest ih =>
    have hhead := hok letter (List.mem_cons_self _ _)
    have htail : ∀ l ∈ rest, up.fails (.searchLetter l) = false :=
      fun l hl => hok l (List.mem_cons_of_mem _ hl)
    cases hres : up.searchLetter letter with
    | error e => simp [Upstream.fails, hres] at hhead
    | ok data =>
      cases hm : data.meals with
      | none => simp [fetchLetters, hres, hm, letterMeals, ih _ htail]
      | some meals => simp [fetchLetters, hres, hm, letterMeals, ih _ htail]

theorem flatten_map_eq_nil {α β : Type} (f : α → List β) (xs : List α)
    (h : ∀ x ∈ xs, f x = []) : (xs.map f).flatten = [] := by
  induction xs with
  | nil => rfl
  | cons x rest ih =>
    simp [h x (List.mem_cons_self _ _), ih (fun y hy => h y (List.mem_cons_of_mem _ hy))]

/-- C8.  On a cache miss (the value `getCache("all")` returns is falsy) with every letter search
resolving, the list-all handler issues the 26 letter searches in the order `'a'` to `'z'`,
answers 200 with `{ meals: top50 }` and stores `top50` under `"all"`, where `top50` is the first
50 elements of the concatenation, in letter order, of the per-letter meal lists (empty for a
payload without a `meals` list).  Hence `top50` has at most 50 elements, and when `'a'` yields
exactly three meals and every other letter none, `top50` is those three meals in order. -/
theorem list_all_aggregation (up : Upstream) (cache : Store) (tRead tWrite : Int)
    (hmiss : (getCache cache "all" tRead).1.truthy = false)
    (hok : ∀ letter ∈ "abcdefghijklmnopqrstuvwxyz".toList,
      up.fails (.searchLetter letter) = false) :
    ∃ cache',
      setCache cache "all"
        (.arr ((("abcdefghijklmnopqrstuvwxyz".toList.map (letterMeals up)).flatten).take 50))
        tWrite = .ok cache' ∧
      getAll up cache tRead tWrite =
        ⟨200,
          .obj [("meals",
            .arr ((("abcdefghijklmnopqrstuvwxyz".toList.map (letterMeals up)).flatten).take 50))],
          cache', "abcdefghijklmnopqrstuvwxyz".toList.map .searchLetter⟩ ∧
      Store.get? cache' "all" =
        some ⟨.arr ((("abcdefghijklmnopqrstuvwxyz".toList.map (letterMeals up)).flatten).take 50),
          tWrite⟩ ∧
      ((("abcdefghijklmnopqrstuvwxyz".toList.map (letterMeals up)).flatten).take 50).length ≤ 50 ∧
      ∀ m1 m2 m3, letterMeals up 'a' = [m1, m2, m3] →
        (∀ letter ∈ "abcdefghijklmnopqrstuvwxyz".toList, letter ≠ 'a' →
          letterMeals up letter = []) →
        (("abcdefghijklmnopqrstuvwxyz".toList.map (letterMeals up)).flatten).take 50 =
          [m1, m2, m3] := by
  rw [← letters_eq] at hok ⊢
  obtain ⟨cache', hset, hget, _⟩ :=
    setCache_returns cache "all" (.arr (((letters.map (letterMeals up)).flatten).take 50)) tWrite
  refine ⟨cache', hset, ?_, hget, List.length_take_le _ _, ?_⟩
  · have hloop := fetchLetters_resolves up letters [] hok
    have hmiss' : (getCache cache (cacheKey .listAll) tRead).1.truthy = false := hmiss
    have hset' : setCache (getCache cache (cacheKey .listAll) tRead).2 (cacheKey .listAll)
        (.arr (((letters.map (letterMeals up)).flatten).take 50)) tWrite = .ok cache' := by
      rw [getCache_snd]
      exact hset
    simp only [List.nil_append] at hloop
    simp only [getAll, hmiss', hloop, hset']
    simp
  · intro m1 m2 m3 ha hrest
    have hsplit : letters = 'a' :: "bcdefghijklmnopqrstuvwxyz".toList := by decide
    have htailnil : (("bcdefghijklmnopqrstuvwxyz".toList).map (letterMeals up)).flatten = [] := by
      apply flatten_map_eq_nil
      intro x hx
      have hxl : x ∈ letters := by
        rw [hsplit]
        exact List.mem_cons_of_mem _ hx
      have hxa : x ≠ 'a' := by
        intro hxa
        rw [hxa] at hx
        revert hx
        decide
      exact hrest x hxl hxa
    rw [hsplit, List.map_cons, List.flatten_cons, htailnil, ha]
    rfl

/-- C8 at Scenario D on the empty store: letter `'a'` yields three meals and every other letter
none; the handler answers with exactly those three meals and stores them under `"all"`. -/
theorem list_all_aggregation_witness :
    (getAll upstreamScenarioD [] 0 1).body =
        .obj [("meals", .arr [.str "m1", .str "m2", .str "m3"])] ∧
      (getAll upstreamScenarioD [] 0 1).cache =
        [("all", ⟨.arr [.str "m1", .str "m2", .str "m3"], 1⟩)] := by
  have hmiss : (getCache [] "all" 0).1.truthy = false := rfl
  have hok : ∀ letter ∈ "abcdefghijklmnopqrstuvwxyz".toList,
      upstreamScenarioD.fails (.searchLetter letter) = false := by
    intro letter _
    by_cases ha : letter = 'a' <;> simp [Upstream.fails, upstreamScenarioD, ha]
  obtain ⟨cache', hset, hall, _, _, hD⟩ :=
    list_all_aggregation upstreamScenarioD [] 0 1 hmiss hok
  have hthree := hD (.str "m1") (.str "m2") (.str "m3") rfl (by
    intro letter _ hne
    simp [letterMeals, upstreamScenarioD, hne])
  rw [hthree] at hset hall
  have hcache : cache' = [("all", ⟨.arr [.str "m1", .str "m2", .str "m3"], 1⟩)] := by
    have h0 : setCache [] "all" (.arr [.str "m1", .str "m2", .str "m3"]) 1 =
        .ok [("all", ⟨.arr [.str "m1", .str "m2", .str "m3"], 1⟩)] := rfl
    rw [h0] at hset
    exact (Except.ok.inj hset).symm
  rw [hall, hcache]
  exact ⟨rfl, rfl⟩

/-! ## C9: serving from the cache -/

/-- C9 fails for a falsy stored value.  With an upstream whose categories payload has no member
`categories`, the first list-categories request (at time 0, empty store) stores `undefined`
under `"categories"`.  At time 1 that entry is live, yet the handler issues the upstream request
again and rewrites the entry. -/
theorem falsy_hit_refetches :
    (getCategories upstreamNoCategories [] 0 0).cache = [("categories", ⟨.undefined, 0⟩)] ∧
    Store.get? [("categories", ⟨.undefined, 0⟩)] (cacheKey .listCategories) =
      some ⟨.undefined, 0⟩ ∧
    (1 : Int) - 0 < CACHE_EXPIRY ∧
    (handle upstreamNoCategories [("categories", ⟨.undefined, 0⟩)] 1 1 .listCategories).calls =
      [.categories] ∧
    (handle upstreamNoCategories [("categories", ⟨.undefined, 0⟩)] 1 1 .listCategories).calls ≠
      [] ∧
    (handle upstreamNoCategories [("categories", ⟨.undefined, 0⟩)] 1 1 .listCategories).cache =
      [("categories", ⟨.undefined, 1⟩)] :=
  ⟨rfl, rfl, by decide, rfl, fun h => List.noConfusion h, rfl⟩

theorem getCache_live (cache : Store) (key : String) (now : Int) (e : Entry)
    (he : Store.get? cache key = some e) (hlive : now - e.time < CACHE_EXPIRY) :
    getCache cache key now = (e.data, cache) := by
  simp [getCache, he, hlive]

/-- C9, amended.  For each of the five handlers: if the store holds under the request's key a
live entry (present, `now - time < CACHE_EXPIRY`) whose stored value is truthy (every array and
every object is; `undefined`, `null`, `false`, `0` and `""` are not), the handler answers 200
with that value unchanged (as `{ meals: … }`, `{ categories: … }`, or as it is for random),
issues no upstream request and leaves the store as it was. -/
theorem cache_hit_short_circuits (up : Upstream) (cache : Store) (tRead tWrite : Int)
    (op : Operation) (e : Entry)
    (he : Store.get? cache (cacheKey op) = some e)
    (hlive : tRead - e.time < CACHE_EXPIRY)
    (htruthy : e.data.truthy = true) :
    handle up cache tRead tWrite op = ⟨200, hitBody e.data op, cache, []⟩ := by
  have hget := getCache_live cache (cacheKey op) tRead e he hlive
  cases op <;>
    simp only [handle, getAll, getSearch, getRandom, getCategories, getCategory, hget, htruthy,
      if_true, hitBody]

/-- C9, amended, at the store `sampleTwo`: the list-all request at time 2 is served the empty
array stored under `"all"`, from an upstream whose every request would reject. -/
theorem cache_hit_short_circuits_witness :
    handle upstreamNoCategories sampleTwo 2 3 .listAll =
      ⟨200, .obj [("meals", .arr [])], sampleTwo, []⟩ :=
  cache_hit_short_circuits upstreamNoCategories sampleTwo 2 3 .listAll ⟨.arr [], 0⟩ rfl
    (by decide) rfl

/-! ## C10: the cache keys of distinct requests differ -/

theorem cacheKey_data (op : Operation) :
    (cacheKey op).data =
      match op with
      | .listAll => ['a', 'l', 'l']
      | .search name => ['s', 'e', 'a', 'r', 'c', 'h', '_'] ++ name.data
      | .random => ['r', 'a', 'n', 'd', 'o', 'm']
      | .listCategories => ['c', 'a', 't', 'e', 'g', 'o', 'r', 'i', 'e', 's']
      | .listByCategory c => ['c', 'a', 't', 'e', 'g', 'o', 'r', 'y', '_'] ++ c.data := by
  cases op <;> simp [cacheKey, String.data_append]

/-- C10.  The cache key function (`"all"`, `"search_" + name`, `"random"`, `"categories"`,
`"category_" + c`) is injective: two requests have the same cache key only if they are the same
operation with the same parameter string. -/
theorem cacheKey_injective : Function.Injective cacheKey := by
  intro a b h
  have hd := congrArg String.data h
  rw [cacheKey_data, cacheKey_data] at hd
  cases a <;> cases b <;> simp at hd <;> first | rfl | skip
  · congr
    exact String.ext hd
  · congr
    exact String.ext hd

end MealCache
